import Mathlib

/-!
# Verification of the RFM customer-segmentation pipeline

A shallow embedding of `src/RFMAnalysis.py` (class `RFM`): transaction
records are rows of a list, pandas column operations become list
operations, and the quantile-binning scorer (`_dynamic_qcut`), the
aggregator (`_calculate_rfm`), and the classifier (`_get_rfm_status`,
`_get_rfm_description`) are translated function by function.

Modelling conventions:
* timestamps (`IslemTarih`) are integers in seconds; the pandas
  `Timedelta.days` accessor is floored division by 86400 (`Int.fdiv`);
* amounts (`IslemTutar`) are rationals;
* a pandas `Series` of per-customer values is a `List ℚ`, ordered by the
  list of distinct customer ids (`customerIds`);
* `pd.cut` labels are `Option ℕ`: `none` is the NaN produced for values
  outside every bin;
* `pd.qcut`/`pd.cut` failures (`ValueError`) are `Except.error`.
-/

/-- One transaction row of the input table: columns `id`, `IslemID`,
`IslemTarih` (timestamp, in seconds), `IslemTutar` (amount). -/
structure Txn where
  id : ℕ
  islemID : ℕ
  islemTarih : ℤ
  islemTutar : ℚ
deriving DecidableEq, Repr

/-- `Timedelta.days`: the floored whole-day part of a difference of
timestamps in seconds (floor division, as pandas floors toward `-∞`). -/
def timedeltaDays (delta : ℤ) : ℤ := delta.fdiv 86400

/-- Maximum step for folding a list of timestamps, `none` on empty input
(the `Series.max` of pandas). -/
def omax (t : ℤ) (acc : Option ℤ) : Option ℤ := some (acc.elim t (max t))

/-- `Series.max`: maximum of a list of timestamps, `none` on empty input. -/
def listMax (ts : List ℤ) : Option ℤ := ts.foldr omax none

/-- `self.latest_date = self.df['IslemTarih'].max()` — the global latest
transaction timestamp, computed once over the whole table. -/
def latestDate (l : List Txn) : ℤ := (listMax (l.map Txn.islemTarih)).getD 0

/-- The rows of one `groupby('id')` group: transactions of customer `c`. -/
def custTxns (l : List Txn) (c : ℕ) : List Txn := l.filter (fun t => t.id == c)

/-- `date.max()` inside one group: the customer's own latest timestamp. -/
def custLatest (l : List Txn) (c : ℕ) : ℤ :=
  (listMax ((custTxns l c).map Txn.islemTarih)).getD 0

/-- `Recency`: `(self.latest_date - date.max()).days` for customer `c`. -/
def recencyDays (l : List Txn) (c : ℕ) : ℤ :=
  timedeltaDays (latestDate l - custLatest l c)

/-- `Frequency`: `'IslemID': 'count'` — the number of rows of the group. -/
def frequency (l : List Txn) (c : ℕ) : ℕ := (custTxns l c).length

/-- `Monetary`: `'IslemTutar': 'sum'` — the summed amounts of the group. -/
def monetary (l : List Txn) (c : ℕ) : ℚ :=
  ((custTxns l c).map Txn.islemTutar).sum

/-- The distinct customer ids of the table, one per `groupby('id')` group
(group-key order is irrelevant to every property proved below). -/
def customerIds (l : List Txn) : List ℕ := (l.map Txn.id).dedup

/-- A numeric column sorted ascending, as NumPy sorts before taking
quantiles. -/
def sortCol (column : List ℚ) : List ℚ := column.insertionSort (· ≤ ·)

/-- The linearly interpolated `p`-quantile of the sorted data `s`
(NumPy `interpolation='linear'`, the default used by `pd.qcut`):
position `h = p·(N−1)`, answer `s[⌊h⌋] + (h−⌊h⌋)·(s[⌊h⌋+1] − s[⌊h⌋])`. -/
def quantileAt (s : List ℚ) (p : ℚ) : ℚ :=
  let h : ℚ := p * ((s.length : ℚ) - 1)
  let lo : ℕ := h.floor.toNat
  let a := s.getD lo 0
  let b := s.getD (lo + 1) a
  a + (h - (h.floor : ℚ)) * (b - a)

/-- The quartile boundary candidates requested by `pd.qcut(column, q=4)`:
the quantiles at fractions 0, 1/4, 1/2, 3/4, 1. -/
def quartileEdges (column : List ℚ) : List ℚ :=
  [0, 1/4, 1/2, 3/4, 1].map (quantileAt (sortCol column))

/-- `duplicates='drop'`: collapse equal boundary values.  The candidate
edges are nondecreasing, so duplicates are adjacent and dropping repeats
of the previous edge is exactly NumPy's `unique` on this input. -/
def dropDupEdges : List ℚ → List ℚ
  | [] => []
  | [a] => [a]
  | a :: b :: rest =>
      if a = b then dropDupEdges (b :: rest) else a :: dropDupEdges (b :: rest)

/-- `_, bins = pd.qcut(column, q=4, retbins=True, duplicates='drop')`:
the surviving bin edges for a column. -/
def qcutBins (column : List ℚ) : List ℚ := dropDupEdges (quartileEdges column)

/-- Walk the edges: value `v` falls in the first bin `i` (counted from
`start`) whose right edge satisfies `v ≤ edge` — bins of `pd.cut` are
right-closed. -/
def binIndexFrom : List ℚ → ℚ → ℕ → Option ℕ
  | _ :: e2 :: rest, v, i =>
      if v ≤ e2 then some i else binIndexFrom (e2 :: rest) v (i + 1)
  | _, _, _ => none

/-- Bin assignment of `pd.cut(·, bins, include_lowest=True)`: values
below the first edge or above the last get no bin (NaN); the first bin is
additionally closed at its lowest boundary. -/
def cutAssign (bins : List ℚ) (v : ℚ) : Option ℕ :=
  match bins with
  | [] => none
  | e :: rest => if v < e then none else binIndexFrom (e :: rest) v 0

/-- The Python slice `labels[-n:]`: for `n = 0` this is the whole list
(`-0 == 0` in Python), otherwise the last `n` elements. -/
def pySliceLast (labels : List ℕ) (n : ℕ) : List ℕ :=
  if n = 0 then labels else labels.drop (labels.length - n)

/-- `pd.cut(column, bins=bins, labels=labs, include_lowest=True)`:
pandas validates that there is exactly one label per bin and raises a
`ValueError` otherwise; on success each value is mapped to the label of
its bin. -/
def cutWith (bins : List ℚ) (labs : List ℕ) (column : List ℚ) :
    Except String (List (Option ℕ)) :=
  if labs.length = bins.length - 1 then
    .ok (column.map (fun v => (cutAssign bins v).bind (fun i => labs.get? i)))
  else
    .error "ValueError: Bin labels must be one fewer than the number of bin edges"

/-- `RFM._dynamic_qcut(column, labels)`: quartile edges with duplicates
dropped, `n = len(bins) - 1`, then `pd.cut` with labels `labels[-n:]`. -/
def dynamicQcut (column : List ℚ) (labels : List ℕ) :
    Except String (List (Option ℕ)) :=
  cutWith (qcutBins column)
    (pySliceLast labels ((qcutBins column).length - 1)) column

/-- The label `_dynamic_qcut` gives to the single value `v` of `column`
(the entry of `dynamicQcut` at `v`'s position, on the success path). -/
def cutLabel (column : List ℚ) (labels : List ℕ) (v : ℚ) : Option ℕ :=
  (cutAssign (qcutBins column) v).bind
    (fun i => (pySliceLast labels ((qcutBins column).length - 1)).get? i)

/-- The Recency column of the per-customer table, over `customerIds`. -/
def recencyCol (l : List Txn) : List ℚ :=
  (customerIds l).map (fun c => (recencyDays l c : ℚ))

/-- The Frequency column of the per-customer table. -/
def frequencyCol (l : List Txn) : List ℚ :=
  (customerIds l).map (fun c => (frequency l c : ℚ))

/-- The Monetary column of the per-customer table. -/
def monetaryCol (l : List Txn) : List ℚ :=
  (customerIds l).map (fun c => monetary l c)

/-- Customer `c`'s `R` label: `_dynamic_qcut(rfm['Recency'], labels=[4, 3, 2, 1])`. -/
def rLabel (l : List Txn) (c : ℕ) : Option ℕ :=
  cutLabel (recencyCol l) [4, 3, 2, 1] ((recencyDays l c : ℚ))

/-- Customer `c`'s `F` label: `_dynamic_qcut(rfm['Frequency'], labels=[1, 2, 3, 4])`. -/
def fLabel (l : List Txn) (c : ℕ) : Option ℕ :=
  cutLabel (frequencyCol l) [1, 2, 3, 4] ((frequency l c : ℚ))

/-- Customer `c`'s `M` label: `_dynamic_qcut(rfm['Monetary'], labels=[1, 2, 3, 4])`. -/
def mLabel (l : List Txn) (c : ℕ) : Option ℕ :=
  cutLabel (monetaryCol l) [1, 2, 3, 4] (monetary l c)

/-- `RFM_Segment`: the f-string `f"{x['R']}{x['F']}{x['M']}"` on three
assigned labels. -/
def rfmSegment (r f m : ℕ) : String :=
  toString r ++ toString f ++ toString m

/-- `RFM_Score`: `rfm[['R', 'F', 'M']].sum(axis=1)` on three assigned
labels. -/
def rfmScore (r f m : ℕ) : ℕ := r + f + m

/-- Customer `c`'s `RFM_Score`; `none` when any of the three labels is
NaN (only possible under degenerate binning). -/
def scoreOf (l : List Txn) (c : ℕ) : Option ℕ :=
  (rLabel l c).bind fun r =>
    (fLabel l c).bind fun f =>
      (mLabel l c).map fun m => rfmScore r f m

/-- `RFM._get_rfm_status(score, avg_score, std_score)`, translated
branch by branch (Python's chained `a > b >= c` is the conjunction of the
two comparisons). -/
def getRfmStatus (score avg_score std_score : ℚ) : String :=
  if avg_score + std_score ≤ score then "Platinum"
  else if score < avg_score + std_score ∧ avg_score ≤ score then "Altın"
  else if score < avg_score ∧ avg_score - std_score ≤ score then "Gümüş"
  else "Bronz"

/-- `RFM._get_rfm_description(status)`: the static lookup table, with the
dictionary `.get` default `"Tanımsız"` for unknown keys. -/
def getRfmDescription (status : String) : String :=
  if status = "Platinum" then
    "Yüksek değerli müşteri. Ortalamanın çok üzerinde sıklık ve para değeri."
  else if status = "Altın" then
    "Orta değerli müşteri. Ortalamanın üzerinde sıklık ve para değeri."
  else if status = "Gümüş" then
    "Düşük-orta değerli müşteri. Ortalamanın altında sıklık ve para değeri, ancak en düşük değil."
  else if status = "Bronz" then
    "Düşük değerli müşteri. Ortalamanın çok altında sıklık ve para değeri."
  else "Tanımsız"

/-- The `RFM_Score` column restricted to its defined entries, as
rationals (pandas reductions skip NaN). -/
def scoreVals (l : List Txn) : List ℚ :=
  ((customerIds l).filterMap (scoreOf l)).map (fun (n : ℕ) => (n : ℚ))

/-- `avg_score = self.rfm['RFM_Score'].mean()`. -/
def meanScore (l : List Txn) : ℚ :=
  (scoreVals l).sum / ((scoreVals l).length : ℚ)

/-- The square of `std_score = self.rfm['RFM_Score'].std()` (sample
variance, pandas default `ddof=1`), kept as the rational `std²` so the
classifier stays computable; comparisons against `avg ± std` are encoded
below by `statusFromVar` through their exact square characterizations. -/
def varScore (l : List Txn) : ℚ :=
  ((scoreVals l).map (fun x => (x - meanScore l) ^ 2)).sum /
    (((scoreVals l).length : ℚ) - 1)

/-- `_get_rfm_status` with the standard deviation given through its
square `v = std²`: each branch condition is the exact square-free
characterization of the corresponding comparison with `avg ± √v`
(see `statusFromVar_eq_getRfmStatus`). -/
def statusFromVar (score avg v : ℚ) : String :=
  if avg ≤ score ∧ v ≤ (score - avg) ^ 2 then "Platinum"
  else if avg ≤ score then "Altın"
  else if (avg - score) ^ 2 ≤ v then "Gümüş"
  else "Bronz"

/-- `calculate_customer_value`'s `Status` column for customer `c`.  A NaN
score compares false in every Python comparison, so it falls through all
three branches to `"Bronz"`. -/
def pipelineStatus (l : List Txn) (c : ℕ) : String :=
  match scoreOf l c with
  | some n => statusFromVar (n : ℚ) (meanScore l) (varScore l)
  | none => "Bronz"

/-- `calculate_customer_value`'s `Description` column for customer `c`. -/
def pipelineDescription (l : List Txn) (c : ℕ) : String :=
  getRfmDescription (pipelineStatus l c)

/-- Decidable equality of `Except` results, for evaluating the scorer on
concrete columns. -/
instance {ε α : Type} [DecidableEq ε] [DecidableEq α] : DecidableEq (Except ε α) :=
  fun x y =>
    match x, y with
    | .ok a, .ok b =>
        if h : a = b then isTrue (by rw [h]) else isFalse (by simp [h])
    | .error a, .error b =>
        if h : a = b then isTrue (by rw [h]) else isFalse (by simp [h])
    | .ok _, .error _ => isFalse (fun hc => Except.noConfusion hc)
    | .error _, .ok _ => isFalse (fun hc => Except.noConfusion hc)

/-! ## Theorems -/

unseal Rat.add Rat.mul Rat.inv Rat.sub in
/-- **C1** (code-bug evidence).  When quantile boundaries collapse, the
scorer does not raise an `InsufficientVarianceError`: on the all-tied
column `[1, 1, 1]` every quartile boundary equals 1, `duplicates='drop'`
leaves a single edge, and `pd.cut` fails with a generic `ValueError`
about the label count; on `[1, 1, 1, 1, 2]` exactly two edges survive
(one usable bin) and the scorer silently labels every value with the
single surviving label 4 instead of failing. -/
theorem degenerate_binning_not_guarded :
    dynamicQcut [1, 1, 1] [1, 2, 3, 4] =
      .error "ValueError: Bin labels must be one fewer than the number of bin edges" ∧
    dynamicQcut [1, 1, 1, 1, 2] [1, 2, 3, 4] =
      .ok [some 4, some 4, some 4, some 4, some 4] := by
  decide

/-- **C2**.  Given any population mean `avg` and standard deviation
`std ≥ 0`, `_get_rfm_status` assigns Platinum iff `score ≥ avg + std`,
Gold (`"Altın"`) iff `avg ≤ score < avg + std`, Silver (`"Gümüş"`) iff
`avg − std ≤ score < avg`, and Bronze (`"Bronz"`) iff
`score < avg − std`: each tier is inclusive at its lower bound and
exclusive at its upper bound, so every score falls in exactly one tier. -/
theorem getRfmStatus_tier_thresholds (score avg std : ℚ) (h : 0 ≤ std) :
    (getRfmStatus score avg std = "Platinum" ↔ avg + std ≤ score) ∧
    (getRfmStatus score avg std = "Altın" ↔ avg ≤ score ∧ score < avg + std) ∧
    (getRfmStatus score avg std = "Gümüş" ↔ avg - std ≤ score ∧ score < avg) ∧
    (getRfmStatus score avg std = "Bronz" ↔ score < avg - std) := by
  unfold getRfmStatus
  split_ifs with h1 h2 h3
  · exact ⟨iff_of_true rfl h1,
      iff_of_false (by decide) (by rintro ⟨-, hb⟩; linarith),
      iff_of_false (by decide) (by rintro ⟨-, hb⟩; linarith),
      iff_of_false (by decide) (by intro hb; linarith)⟩
  · obtain ⟨hlt, hge⟩ := h2
    exact ⟨iff_of_false (by decide) (by intro hb; linarith),
      iff_of_true rfl ⟨hge, hlt⟩,
      iff_of_false (by decide) (by rintro ⟨-, hb⟩; linarith),
      iff_of_false (by decide) (by intro hb; linarith)⟩
  · obtain ⟨hlt, hge⟩ := h3
    exact ⟨iff_of_false (by decide) (by intro hb; linarith),
      iff_of_false (by decide) (by rintro ⟨hb, -⟩; linarith),
      iff_of_true rfl ⟨hge, hlt⟩,
      iff_of_false (by decide) (by intro hb; linarith)⟩
  · push_neg at h1 h2 h3
    have hb : score < avg - std := h3 (h2 h1)
    exact ⟨iff_of_false (by decide) (by intro hc; linarith),
      iff_of_false (by decide) (by rintro ⟨hc, -⟩; linarith),
      iff_of_false (by decide) (by rintro ⟨hc, -⟩; linarith),
      iff_of_true rfl hb⟩

/-- Witness for C2 at `score = 5`, `avg = 3`, `std = 1`. -/
theorem getRfmStatus_tier_thresholds_witness :
    (0 : ℚ) ≤ 1 ∧
    ((getRfmStatus 5 3 1 = "Platinum" ↔ (3 : ℚ) + 1 ≤ 5) ∧
     (getRfmStatus 5 3 1 = "Altın" ↔ (3 : ℚ) ≤ 5 ∧ (5 : ℚ) < 3 + 1) ∧
     (getRfmStatus 5 3 1 = "Gümüş" ↔ (3 : ℚ) - 1 ≤ 5 ∧ (5 : ℚ) < 3) ∧
     (getRfmStatus 5 3 1 = "Bronz" ↔ (5 : ℚ) < 3 - 1)) :=
  ⟨by norm_num, getRfmStatus_tier_thresholds 5 3 1 (by norm_num)⟩

/-- **C5**.  On any three assigned labels (R from `[4, 3, 2, 1]`, F and M
from `[1, 2, 3, 4]`), `RFM_Score` is the numeric sum `R + F + M`, and it
equals the sum of the digit values of the concatenated `RFM_Segment`
string. -/
theorem score_is_sum_of_segment_digits (r f m : ℕ)
    (hr : r ∈ [4, 3, 2, 1]) (hf : f ∈ [1, 2, 3, 4]) (hm : m ∈ [1, 2, 3, 4]) :
    rfmScore r f m = r + f + m ∧
    ((rfmSegment r f m).data.map (fun ch => ch.toNat - '0'.toNat)).sum
      = rfmScore r f m := by
  fin_cases hr <;> fin_cases hf <;> fin_cases hm <;> exact ⟨rfl, by decide⟩

/-- Witness for C5 at `R = 4`, `F = 1`, `M = 2` (segment `"412"`). -/
theorem score_is_sum_of_segment_digits_witness :
    4 ∈ [4, 3, 2, 1] ∧ 1 ∈ [1, 2, 3, 4] ∧ 2 ∈ [1, 2, 3, 4] ∧
    (rfmScore 4 1 2 = 4 + 1 + 2 ∧
     ((rfmSegment 4 1 2).data.map (fun ch => ch.toNat - '0'.toNat)).sum
       = rfmScore 4 1 2) :=
  ⟨by decide, by decide, by decide,
    score_is_sum_of_segment_digits 4 1 2 (by decide) (by decide) (by decide)⟩

/-- **C6**.  Under non-degenerate binning the three labels come from
`[4, 3, 2, 1]` resp. `[1, 2, 3, 4]`, and then the `RFM_Segment` string
has exactly 3 characters, each one of the digits 1–4. -/
theorem segment_three_chars_from_digits (r f m : ℕ)
    (hr : r ∈ [4, 3, 2, 1]) (hf : f ∈ [1, 2, 3, 4]) (hm : m ∈ [1, 2, 3, 4]) :
    (rfmSegment r f m).length = 3 ∧
    ∀ ch ∈ (rfmSegment r f m).data, ch ∈ ['1', '2', '3', '4'] := by
  fin_cases hr <;> fin_cases hf <;> fin_cases hm <;> exact ⟨rfl, by decide⟩

/-- Witness for C6 at `R = 3`, `F = 2`, `M = 4` (segment `"324"`). -/
theorem segment_three_chars_from_digits_witness :
    3 ∈ [4, 3, 2, 1] ∧ 2 ∈ [1, 2, 3, 4] ∧ 4 ∈ [1, 2, 3, 4] ∧
    ((rfmSegment 3 2 4).length = 3 ∧
     ∀ ch ∈ (rfmSegment 3 2 4).data, ch ∈ ['1', '2', '3', '4']) :=
  ⟨by decide, by decide, by decide,
    segment_three_chars_from_digits 3 2 4 (by decide) (by decide) (by decide)⟩

/-- **C8**.  The description lookup is total over everything the
classifier can produce: for every score/mean/std input,
`_get_rfm_description (_get_rfm_status …)` is one of the four fixed tier
descriptions and never the defensive `"Tanımsız"` sentinel. -/
theorem description_total_no_sentinel (score avg std : ℚ) :
    getRfmDescription (getRfmStatus score avg std) ≠ "Tanımsız" ∧
    getRfmDescription (getRfmStatus score avg std) ∈
      ["Yüksek değerli müşteri. Ortalamanın çok üzerinde sıklık ve para değeri.",
       "Orta değerli müşteri. Ortalamanın üzerinde sıklık ve para değeri.",
       "Düşük-orta değerli müşteri. Ortalamanın altında sıklık ve para değeri, ancak en düşük değil.",
       "Düşük değerli müşteri. Ortalamanın çok altında sıklık ve para değeri."] := by
  unfold getRfmStatus
  split_ifs <;> exact ⟨by decide, by decide⟩

/-- **C4**.  Whenever duplicate-collapse leaves `n` usable bins with
`2 ≤ n ≤ 4`, `_dynamic_qcut` bins with exactly the last `n` labels of
the provided 4-label ordering (dropping the first `4 − n`), for the
descending Recency ordering `[4, 3, 2, 1]` and the ascending
Frequency/Monetary ordering `[1, 2, 3, 4]` alike. -/
theorem qcut_uses_last_n_labels (column : List ℚ)
    (h2 : 2 ≤ (qcutBins column).length - 1)
    (h4 : (qcutBins column).length - 1 ≤ 4) :
    dynamicQcut column [4, 3, 2, 1] =
      cutWith (qcutBins column)
        (List.drop (4 - ((qcutBins column).length - 1)) [4, 3, 2, 1]) column ∧
    dynamicQcut column [1, 2, 3, 4] =
      cutWith (qcutBins column)
        (List.drop (4 - ((qcutBins column).length - 1)) [1, 2, 3, 4]) column := by
  have htri : (qcutBins column).length - 1 = 2 ∨
      (qcutBins column).length - 1 = 3 ∨ (qcutBins column).length - 1 = 4 := by
    omega
  unfold dynamicQcut
  rcases htri with h | h | h <;> rw [h] <;> exact ⟨rfl, rfl⟩

unseal Rat.add Rat.mul Rat.inv Rat.sub in
/-- Witness for C4 on the column `[1, 1, 1, 2, 3, 4, 5]`, whose quartile
boundaries collapse to 4 surviving edges, i.e. `n = 3` usable bins. -/
theorem qcut_uses_last_n_labels_witness :
    2 ≤ (qcutBins [1, 1, 1, 2, 3, 4, 5]).length - 1 ∧
    (qcutBins [1, 1, 1, 2, 3, 4, 5]).length - 1 ≤ 4 ∧
    (dynamicQcut [1, 1, 1, 2, 3, 4, 5] [4, 3, 2, 1] =
      cutWith (qcutBins [1, 1, 1, 2, 3, 4, 5])
        (List.drop (4 - ((qcutBins [1, 1, 1, 2, 3, 4, 5]).length - 1)) [4, 3, 2, 1])
        [1, 1, 1, 2, 3, 4, 5] ∧
     dynamicQcut [1, 1, 1, 2, 3, 4, 5] [1, 2, 3, 4] =
      cutWith (qcutBins [1, 1, 1, 2, 3, 4, 5])
        (List.drop (4 - ((qcutBins [1, 1, 1, 2, 3, 4, 5]).length - 1)) [1, 2, 3, 4])
        [1, 1, 1, 2, 3, 4, 5]) :=
  ⟨by decide, by decide,
    qcut_uses_last_n_labels [1, 1, 1, 2, 3, 4, 5] (by decide) (by decide)⟩

/-- A maximum computed by `listMax` is an element of the list. -/
lemma listMax_mem : ∀ {ts : List ℤ} {m : ℤ}, listMax ts = some m → m ∈ ts := by
  intro ts
  induction ts with
  | nil => intro m hm; cases hm
  | cons t rest ih =>
    intro m hm
    simp only [listMax, List.foldr] at hm
    cases hrest : (listMax rest) with
    | none =>
        rw [show List.foldr omax none rest = listMax rest from rfl, hrest] at hm
        simp [omax] at hm
        simp [hm]
    | some m' =>
        rw [show List.foldr omax none rest = listMax rest from rfl, hrest] at hm
        simp [omax] at hm
        rcases max_choice t m' with hmax | hmax <;> rw [← hm]
        · simp [hmax]
        · rw [hmax]
          exact List.mem_cons_of_mem t (ih hrest)

/-- Every element of a list is bounded by its `listMax`. -/
lemma le_listMax : ∀ {ts : List ℤ} {x : ℤ}, x ∈ ts →
    ∃ m, listMax ts = some m ∧ x ≤ m := by
  intro ts
  induction ts with
  | nil => intro x hx; cases hx
  | cons t rest ih =>
    intro x hx
    have hfold : listMax (t :: rest) = some ((listMax rest).elim t (max t)) := rfl
    cases hrest : (listMax rest) with
    | none =>
        rw [hrest] at hfold
        rcases List.mem_cons.mp hx with rfl | hxr
        · exact ⟨x, hfold, le_refl x⟩
        · obtain ⟨m, hm, -⟩ := ih hxr
          rw [hrest] at hm; cases hm
    | some m' =>
        rw [hrest] at hfold
        rcases List.mem_cons.mp hx with rfl | hxr
        · exact ⟨max x m', hfold, le_max_left x m'⟩
        · obtain ⟨m, hm, hxm⟩ := ih hxr
          rw [hrest] at hm
          injection hm with hm
          exact ⟨max t m', hfold, le_trans (hm ▸ hxm) (le_max_right t m')⟩

/-- **C3**.  For a customer `c` with at least one transaction, `Recency`
is the floored whole-day difference between the global latest timestamp
(`self.latest_date`, computed once over the entire table) and the
customer's own latest timestamp, and that value is never negative. -/
theorem recency_is_nonneg_floored_day_diff (l : List Txn) (c : ℕ)
    (h : custTxns l c ≠ []) :
    recencyDays l c = (latestDate l - custLatest l c).fdiv 86400 ∧
    0 ≤ recencyDays l c := by
  refine ⟨rfl, ?_⟩
  have hts : (custTxns l c).map Txn.islemTarih ≠ [] := by
    simpa using h
  obtain ⟨t0, ht0⟩ := List.exists_mem_of_ne_nil _ hts
  obtain ⟨mc, hmc, -⟩ := le_listMax ht0
  have hcust : custLatest l c = mc := by
    unfold custLatest; rw [hmc]; rfl
  have hmem : mc ∈ l.map Txn.islemTarih := by
    obtain ⟨txn, htxn, rfl⟩ := List.mem_map.mp (listMax_mem hmc)
    exact List.mem_map_of_mem Txn.islemTarih (List.mem_of_mem_filter htxn)
  obtain ⟨mg, hmg, hle⟩ := le_listMax hmem
  have hglob : latestDate l = mg := by
    unfold latestDate; rw [hmg]; rfl
  have hnn : 0 ≤ latestDate l - custLatest l c := by
    rw [hcust, hglob]; linarith
  exact Int.fdiv_nonneg hnn (by norm_num)

/-- Witness for C3: two customers, customer 2's single transaction lies
six days before the global maximum. -/
theorem recency_is_nonneg_floored_day_diff_witness :
    custTxns [⟨1, 10, 86400 * 6, 5⟩, ⟨2, 11, 0, 3⟩] 2 ≠ [] ∧
    (recencyDays [⟨1, 10, 86400 * 6, 5⟩, ⟨2, 11, 0, 3⟩] 2 =
      (latestDate [⟨1, 10, 86400 * 6, 5⟩, ⟨2, 11, 0, 3⟩] -
        custLatest [⟨1, 10, 86400 * 6, 5⟩, ⟨2, 11, 0, 3⟩] 2).fdiv 86400 ∧
     0 ≤ recencyDays [⟨1, 10, 86400 * 6, 5⟩, ⟨2, 11, 0, 3⟩] 2) :=
  ⟨by decide, recency_is_nonneg_floored_day_diff _ 2 (by decide)⟩

/-- Sum of pointwise sums of two `ℕ`-valued maps over one list. -/
lemma sum_map_add_nat (d : List ℕ) (f g : ℕ → ℕ) :
    (d.map (fun c => f c + g c)).sum = (d.map f).sum + (d.map g).sum := by
  induction d with
  | nil => simp
  | cons b t ih => simp [ih]; omega

/-- Over a duplicate-free list, the indicator of `a` sums to 1 or 0
according to membership. -/
lemma sum_map_ite_one (a : ℕ) : ∀ (d : List ℕ), d.Nodup →
    (d.map (fun c => if c = a then 1 else 0)).sum = if a ∈ d then 1 else 0 := by
  intro d
  induction d with
  | nil => intro _; simp
  | cons b t ih =>
    intro hd
    obtain ⟨hbt, ht⟩ := List.nodup_cons.mp hd
    rcases eq_or_ne b a with rfl | hba
    · have hnot : b ∉ t := hbt
      simp [ih ht, hnot]
    · simp [hba, ih ht, List.mem_cons, Ne.symm hba]

/-- Partition counting: summing, over the distinct values of a list, the
number of occurrences of each value gives back the length of the list. -/
lemma sum_count_dedup : ∀ (m : List ℕ),
    (m.dedup.map (fun c => m.count c)).sum = m.length := by
  intro m
  induction m with
  | nil => simp
  | cons a t ih =>
    have hsplit : ∀ c, (a :: t).count c = t.count c + if c = a then 1 else 0 := by
      intro c
      rw [List.count_cons]
      rcases eq_or_ne a c with rfl | hac
      · simp
      · simp [hac, Ne.symm hac]
    by_cases hmem : a ∈ t
    · rw [List.dedup_cons_of_mem hmem]
      rw [List.map_congr_left (fun c _ => hsplit c), sum_map_add_nat, ih,
        sum_map_ite_one a t.dedup t.nodup_dedup]
      simp [List.mem_dedup.mpr hmem]
    · rw [List.dedup_cons_of_not_mem hmem]
      have hsum : t.dedup.map (fun c => (a :: t).count c)
          = t.dedup.map (fun c => t.count c) := by
        refine List.map_congr_left (fun c hc => ?_)
        have hca : c ≠ a := fun hca => hmem (hca ▸ List.mem_dedup.mp hc)
        rw [hsplit c]
        simp [hca]
      rw [List.map_cons, List.sum_cons, hsum, ih, hsplit a,
        List.count_eq_zero.mpr hmem]
      simp [Nat.add_comm]

/-- **C7**.  The aggregated `Frequency` values, summed over all distinct
customers, give back exactly the number of transaction rows of the input
table. -/
theorem frequency_sums_to_row_count (l : List Txn) :
    ((customerIds l).map (fun c => frequency l c)).sum = l.length := by
  have hfc : ∀ c, frequency l c = (l.map Txn.id).count c := by
    intro c
    unfold frequency custTxns
    rw [List.count, List.countP_map, ← List.countP_eq_length_filter]
    rfl
  unfold customerIds
  rw [List.map_congr_left (fun c _ => hfc c), sum_count_dedup,
    List.length_map]

/-- In a strictly increasing list, `getD` is strictly monotone. -/
lemma chain'_lt_getD {l : List ℚ} (hc : l.Chain' (· < ·)) {i j : ℕ}
    (hij : i < j) (hj : j < l.length) : l.getD i 0 < l.getD j 0 := by
  have hp : l.Pairwise (· < ·) := List.chain'_iff_pairwise.mp hc
  have hi : i < l.length := lt_trans hij hj
  rw [List.getD_eq_get _ _ hi, List.getD_eq_get _ _ hj]
  exact List.pairwise_iff_get.mp hp ⟨i, hi⟩ ⟨j, hj⟩ hij

/-- Walking strictly increasing edges from any running index, the value
sitting exactly on edge `j ≥ 1` lands in bin `j − 1` (the bin that ends
at that edge). -/
lemma binIndexFrom_at_edge : ∀ (edges : List ℚ) (j i : ℕ),
    edges.Chain' (· < ·) → 1 ≤ j → j < edges.length →
    binIndexFrom edges (edges.getD j 0) i = some (i + (j - 1)) := by
  intro edges
  induction edges with
  | nil => intro j i _ _ hj; simp at hj
  | cons e1 rest ih =>
    intro j i hc h1 hj
    cases rest with
    | nil => simp at hj; omega
    | cons e2 rest2 =>
      obtain rfl | h2 := (show j = 1 ∨ 2 ≤ j by omega)
      · unfold binIndexFrom
        rw [show (e1 :: e2 :: rest2).getD 1 0 = e2 from rfl,
          if_pos (le_refl e2)]
        simp
      · obtain ⟨j', rfl⟩ : ∃ j', j = j' + 1 := ⟨j - 1, by omega⟩
        have hv : (e1 :: e2 :: rest2).getD (j' + 1) 0
            = (e2 :: rest2).getD j' 0 := rfl
        have hlt : e2 < (e1 :: e2 :: rest2).getD (j' + 1) 0 := by
          have := chain'_lt_getD hc (show 1 < j' + 1 by omega) hj
          exact this
        unfold binIndexFrom
        rw [if_neg (not_le.mpr hlt), hv,
          ih j' (i + 1) (List.Chain'.tail hc) (by omega)
            (by simp at hj ⊢; omega)]
        simp only [Option.some.injEq]
        omega

/-- Head of the duplicate-collapsed edge list is the first raw edge. -/
lemma dropDupEdges_head? : ∀ (es : List ℚ),
    (dropDupEdges es).head? = es.head? := by
  intro es
  induction es with
  | nil => rfl
  | cons a rest ih =>
    cases rest with
    | nil => rfl
    | cons b rest2 =>
      unfold dropDupEdges
      by_cases hab : a = b
      · rw [if_pos hab, ih]
        simp [hab]
      · rw [if_neg hab]
        rfl

/-- The 0-quantile of a sorted list is its first element. -/
lemma quantileAt_zero (s : List ℚ) : quantileAt s 0 = s.getD 0 0 := by
  have h0 : (0 : ℚ).floor = 0 := by decide
  simp only [quantileAt, zero_mul, h0]
  simp

/-- **C10** (implicit boundary semantics of `_dynamic_qcut`).  Bins of
`pd.cut(.., include_lowest=True)` are right-closed: over strictly
increasing surviving edges, (1) a value exactly equal to an interior
edge `j` is assigned the lower bin `j − 1` (hence the earlier label),
(2) the lowest edge itself — included by `include_lowest` — is assigned
bin 0, whose label is the first, i.e. lowest, surviving label, and
(3) for a non-empty column the lowest quantile edge is the column
minimum (the head of the sorted column), so the minimum always receives
the lowest surviving label. -/
theorem cut_boundary_goes_to_lower_bin :
    (∀ (edges : List ℚ) (j : ℕ), edges.Chain' (· < ·) → 1 ≤ j →
        j + 1 < edges.length →
        cutAssign edges (edges.getD j 0) = some (j - 1)) ∧
    (∀ edges : List ℚ, edges.Chain' (· < ·) → 2 ≤ edges.length →
        cutAssign edges (edges.getD 0 0) = some 0) ∧
    (∀ column : List ℚ, column ≠ [] →
        (qcutBins column).head? = (sortCol column).head?) := by
  refine ⟨?_, ?_, ?_⟩
  · intro edges j hc h1 hj
    cases edges with
    | nil => simp at hj
    | cons e rest =>
        have hlt : e < (e :: rest).getD j 0 :=
          chain'_lt_getD hc (show 0 < j by omega) (by simp at hj ⊢; omega)
        simp only [cutAssign]
        rw [if_neg (not_lt.mpr (le_of_lt hlt))]
        simpa using binIndexFrom_at_edge (e :: rest) j 0 hc h1
          (by simp at hj ⊢; omega)
  · intro edges hc h2
    cases edges with
    | nil => simp at h2
    | cons e1 rest =>
      cases rest with
      | nil => simp at h2
      | cons e2 rest2 =>
        have h12 : e1 < e2 := (List.chain'_cons.mp hc).1
        rw [show (e1 :: e2 :: rest2).getD 0 0 = e1 from rfl]
        simp only [cutAssign, binIndexFrom]
        rw [if_neg (lt_irrefl e1), if_pos (le_of_lt h12)]
  · intro column hcol
    have hs : sortCol column ≠ [] := by
      intro hnil
      unfold sortCol at hnil
      have hperm := List.perm_insertionSort (· ≤ ·) column
      rw [hnil] at hperm
      exact hcol (hperm.symm.eq_nil)
    rw [show qcutBins column = dropDupEdges (quartileEdges column) from rfl,
      dropDupEdges_head?,
      show (quartileEdges column).head?
        = some (quantileAt (sortCol column) 0) from rfl,
      quantileAt_zero]
    cases hsc : sortCol column with
    | nil => exact absurd hsc hs
    | cons x xs => rfl

unseal Rat.add Rat.mul Rat.inv Rat.sub in
/-- Witness for C10: edges `[1, 2, 4]` with the boundary value 2 going
to bin 0, the lowest edge 1 going to bin 0, and the column `[2, 1]`
whose first surviving edge is the column minimum 1. -/
theorem cut_boundary_goes_to_lower_bin_witness :
    (List.Chain' (· < ·) [(1 : ℚ), 2, 4] ∧ 1 ≤ 1 ∧
      1 + 1 < ([(1 : ℚ), 2, 4]).length ∧
      cutAssign [(1 : ℚ), 2, 4] (List.getD [(1 : ℚ), 2, 4] 1 0) = some 0) ∧
    (List.Chain' (· < ·) [(1 : ℚ), 2, 4] ∧ 2 ≤ ([(1 : ℚ), 2, 4]).length ∧
      cutAssign [(1 : ℚ), 2, 4] (List.getD [(1 : ℚ), 2, 4] 0 0) = some 0) ∧
    (([(2 : ℚ), 1]) ≠ [] ∧
      (qcutBins [(2 : ℚ), 1]).head? = (sortCol [(2 : ℚ), 1]).head?) :=
  ⟨⟨by norm_num [List.chain'_cons], by decide, by decide,
      cut_boundary_goes_to_lower_bin.1 [1, 2, 4] 1
        (by norm_num [List.chain'_cons]) (by decide) (by decide)⟩,
    ⟨by norm_num [List.chain'_cons], by decide,
      cut_boundary_goes_to_lower_bin.2.1 [1, 2, 4]
        (by norm_num [List.chain'_cons]) (by decide)⟩,
    ⟨by decide,
      cut_boundary_goes_to_lower_bin.2.2 [2, 1] (by decide)⟩⟩

/-- Folding `omax` is order-insensitive: `max` is left-commutative when
lifted to `Option`. -/
instance : LeftCommutative omax :=
  ⟨by
    intro a b acc
    cases acc with
    | none => simp [omax, max_comm]
    | some m => simp [omax, max_left_comm]⟩

/-- `Series.max` depends only on the multiset of timestamps. -/
lemma listMax_perm {ts₁ ts₂ : List ℤ} (h : ts₁.Perm ts₂) :
    listMax ts₁ = listMax ts₂ :=
  h.foldr_eq none

/-- The global latest date is permutation-invariant. -/
lemma latestDate_perm {l₁ l₂ : List Txn} (h : l₁.Perm l₂) :
    latestDate l₁ = latestDate l₂ := by
  unfold latestDate
  rw [listMax_perm (h.map Txn.islemTarih)]

/-- Each customer's group is a permutation of the other run's group. -/
lemma custTxns_perm {l₁ l₂ : List Txn} (h : l₁.Perm l₂) (c : ℕ) :
    (custTxns l₁ c).Perm (custTxns l₂ c) :=
  h.filter _

/-- Each customer's latest own timestamp is permutation-invariant. -/
lemma custLatest_perm {l₁ l₂ : List Txn} (h : l₁.Perm l₂) (c : ℕ) :
    custLatest l₁ c = custLatest l₂ c := by
  unfold custLatest
  rw [listMax_perm ((custTxns_perm h c).map Txn.islemTarih)]

/-- `Recency` is permutation-invariant. -/
lemma recencyDays_perm {l₁ l₂ : List Txn} (h : l₁.Perm l₂) (c : ℕ) :
    recencyDays l₁ c = recencyDays l₂ c := by
  unfold recencyDays
  rw [latestDate_perm h, custLatest_perm h c]

/-- `Frequency` is permutation-invariant. -/
lemma frequency_perm {l₁ l₂ : List Txn} (h : l₁.Perm l₂) (c : ℕ) :
    frequency l₁ c = frequency l₂ c :=
  (custTxns_perm h c).length_eq

/-- `Monetary` is permutation-invariant. -/
lemma monetary_perm {l₁ l₂ : List Txn} (h : l₁.Perm l₂) (c : ℕ) :
    monetary l₁ c = monetary l₂ c :=
  ((custTxns_perm h c).map Txn.islemTutar).sum_eq

/-- The distinct-id lists of two permuted tables are permutations. -/
lemma customerIds_perm {l₁ l₂ : List Txn} (h : l₁.Perm l₂) :
    (customerIds l₁).Perm (customerIds l₂) :=
  (h.map Txn.id).dedup

/-- Two permuted columns sort to the same list. -/
lemma sortCol_perm_eq {c₁ c₂ : List ℚ} (h : c₁.Perm c₂) :
    sortCol c₁ = sortCol c₂ :=
  List.eq_of_perm_of_sorted
    ((List.perm_insertionSort _ c₁).trans
      (h.trans (List.perm_insertionSort _ c₂).symm))
    (List.sorted_insertionSort _ c₁) (List.sorted_insertionSort _ c₂)

/-- The surviving quantile edges depend only on the column's multiset. -/
lemma qcutBins_perm_eq {c₁ c₂ : List ℚ} (h : c₁.Perm c₂) :
    qcutBins c₁ = qcutBins c₂ := by
  unfold qcutBins quartileEdges
  rw [sortCol_perm_eq h]

/-- The Recency columns of two permuted tables are permutations. -/
lemma recencyCol_perm {l₁ l₂ : List Txn} (h : l₁.Perm l₂) :
    (recencyCol l₁).Perm (recencyCol l₂) := by
  unfold recencyCol
  have hmap : (customerIds l₂).map (fun c => ((recencyDays l₁ c : ℤ) : ℚ))
      = (customerIds l₂).map (fun c => ((recencyDays l₂ c : ℤ) : ℚ)) :=
    List.map_congr_left (fun c _ => by rw [recencyDays_perm h c])
  rw [← hmap]
  exact (customerIds_perm h).map _

/-- The Frequency columns of two permuted tables are permutations. -/
lemma frequencyCol_perm {l₁ l₂ : List Txn} (h : l₁.Perm l₂) :
    (frequencyCol l₁).Perm (frequencyCol l₂) := by
  unfold frequencyCol
  have hmap : (customerIds l₂).map (fun c => ((frequency l₁ c : ℕ) : ℚ))
      = (customerIds l₂).map (fun c => ((frequency l₂ c : ℕ) : ℚ)) :=
    List.map_congr_left (fun c _ => by rw [frequency_perm h c])
  rw [← hmap]
  exact (customerIds_perm h).map _

/-- The Monetary columns of two permuted tables are permutations. -/
lemma monetaryCol_perm {l₁ l₂ : List Txn} (h : l₁.Perm l₂) :
    (monetaryCol l₁).Perm (monetaryCol l₂) := by
  unfold monetaryCol
  have hmap : (customerIds l₂).map (fun c => monetary l₁ c)
      = (customerIds l₂).map (fun c => monetary l₂ c) :=
    List.map_congr_left (fun c _ => by rw [monetary_perm h c])
  rw [← hmap]
  exact (customerIds_perm h).map _

/-- The `R` label of each customer is permutation-invariant. -/
lemma rLabel_perm {l₁ l₂ : List Txn} (h : l₁.Perm l₂) (c : ℕ) :
    rLabel l₁ c = rLabel l₂ c := by
  unfold rLabel cutLabel
  rw [qcutBins_perm_eq (recencyCol_perm h), recencyDays_perm h c]

/-- The `F` label of each customer is permutation-invariant. -/
lemma fLabel_perm {l₁ l₂ : List Txn} (h : l₁.Perm l₂) (c : ℕ) :
    fLabel l₁ c = fLabel l₂ c := by
  unfold fLabel cutLabel
  rw [qcutBins_perm_eq (frequencyCol_perm h), frequency_perm h c]

/-- The `M` label of each customer is permutation-invariant. -/
lemma mLabel_perm {l₁ l₂ : List Txn} (h : l₁.Perm l₂) (c : ℕ) :
    mLabel l₁ c = mLabel l₂ c := by
  unfold mLabel cutLabel
  rw [qcutBins_perm_eq (monetaryCol_perm h), monetary_perm h c]

/-- The `RFM_Score` of each customer is permutation-invariant. -/
lemma scoreOf_perm {l₁ l₂ : List Txn} (h : l₁.Perm l₂) (c : ℕ) :
    scoreOf l₁ c = scoreOf l₂ c := by
  unfold scoreOf
  rw [rLabel_perm h c, fLabel_perm h c, mLabel_perm h c]

/-- The defined score entries of two permuted tables are permutations. -/
lemma scoreVals_perm {l₁ l₂ : List Txn} (h : l₁.Perm l₂) :
    (scoreVals l₁).Perm (scoreVals l₂) := by
  unfold scoreVals
  rw [funext (scoreOf_perm h)]
  exact ((customerIds_perm h).filterMap _).map _

/-- The population mean of scores is permutation-invariant. -/
lemma meanScore_perm {l₁ l₂ : List Txn} (h : l₁.Perm l₂) :
    meanScore l₁ = meanScore l₂ := by
  unfold meanScore
  rw [(scoreVals_perm h).sum_eq, (scoreVals_perm h).length_eq]

/-- The (squared) standard deviation of scores is permutation-invariant. -/
lemma varScore_perm {l₁ l₂ : List Txn} (h : l₁.Perm l₂) :
    varScore l₁ = varScore l₂ := by
  unfold varScore
  rw [meanScore_perm h,
    ((scoreVals_perm h).map (fun x => (x - meanScore l₂) ^ 2)).sum_eq,
    (scoreVals_perm h).length_eq]

/-- `statusFromVar` is exactly `_get_rfm_status` evaluated at a
standard deviation `std ≥ 0` whose square is the variance argument:
the square-comparison encoding is faithful. -/
lemma statusFromVar_eq_getRfmStatus (s avg std : ℚ) (h : 0 ≤ std) :
    statusFromVar s avg (std ^ 2) = getRfmStatus s avg std := by
  unfold statusFromVar getRfmStatus
  rcases le_or_lt (avg + std) s with hP | hP
  · rw [if_pos ⟨by linarith, by
      nlinarith [mul_nonneg (show (0 : ℚ) ≤ s - avg - std by linarith)
        (show (0 : ℚ) ≤ s - avg + std by linarith)]⟩, if_pos hP]
  · rcases le_or_lt avg s with hG | hG
    · rw [if_neg (by
          rintro ⟨-, hb⟩
          nlinarith [mul_pos (show (0 : ℚ) < std - (s - avg) by linarith)
            (show (0 : ℚ) < std + (s - avg) by linarith)]),
        if_pos hG, if_neg (show ¬avg + std ≤ s by linarith),
        if_pos ⟨hP, hG⟩]
    · rcases le_or_lt (avg - std) s with hS | hS
      · rw [if_neg (by rintro ⟨ha, -⟩; linarith),
          if_neg (by linarith),
          if_pos (by
            nlinarith [mul_nonneg (show (0 : ℚ) ≤ std - (avg - s) by linarith)
              (show (0 : ℚ) ≤ std + (avg - s) by linarith)]),
          if_neg (show ¬avg + std ≤ s by linarith),
          if_neg (by rintro ⟨-, hb⟩; linarith),
          if_pos ⟨hG, hS⟩]
      · rw [if_neg (by rintro ⟨ha, -⟩; linarith),
          if_neg (by linarith),
          if_neg (by
            intro hb
            nlinarith [mul_pos (show (0 : ℚ) < (avg - s) - std by linarith)
              (show (0 : ℚ) < (avg - s) + std by linarith)]),
          if_neg (show ¬avg + std ≤ s by linarith),
          if_neg (by rintro ⟨-, hb⟩; linarith),
          if_neg (by rintro ⟨-, hb⟩; linarith)]

/-- **C9**.  Status assignment is deterministic and depends only on the
transaction set: two runs on inputs holding the same transactions (in
any order) give every customer the identical `Status` and
`Description` — the computation uses no randomness. -/
theorem status_deterministic_on_input_set (l₁ l₂ : List Txn)
    (hp : l₁.Perm l₂) (c : ℕ) :
    pipelineStatus l₁ c = pipelineStatus l₂ c ∧
    pipelineDescription l₁ c = pipelineDescription l₂ c := by
  have hst : pipelineStatus l₁ c = pipelineStatus l₂ c := by
    unfold pipelineStatus
    rw [scoreOf_perm hp c, meanScore_perm hp, varScore_perm hp]
  exact ⟨hst, by unfold pipelineDescription; rw [hst]⟩

/-- Witness for C9: the same two transactions in either order give
customer 1 the same status and description. -/
theorem status_deterministic_on_input_set_witness :
    ([⟨1, 10, 86400, 5⟩, ⟨2, 11, 0, 3⟩] : List Txn).Perm
      [⟨2, 11, 0, 3⟩, ⟨1, 10, 86400, 5⟩] ∧
    (pipelineStatus [⟨1, 10, 86400, 5⟩, ⟨2, 11, 0, 3⟩] 1 =
      pipelineStatus [⟨2, 11, 0, 3⟩, ⟨1, 10, 86400, 5⟩] 1 ∧
     pipelineDescription [⟨1, 10, 86400, 5⟩, ⟨2, 11, 0, 3⟩] 1 =
      pipelineDescription [⟨2, 11, 0, 3⟩, ⟨1, 10, 86400, 5⟩] 1) :=
  ⟨List.Perm.swap _ _ _,
    status_deterministic_on_input_set _ _ (List.Perm.swap _ _ _) 1⟩
